import Mathlib

/-!
# Verification of the NBocIDE workspace-confinement and file-tree subsystem

Shallow embedding of the core logic of `src/routes/project.js` and
`src/routes/folders.js` (Node/Express, POSIX host):

* POSIX path joining / resolution (`path.join`, `path.resolve`) modelled on
  lists of characters, since the security check in the routes is a *string*
  operation (`String.prototype.startsWith`);
* the per-route security check of `project.js`
  (`resolvedPath.startsWith(resolvedProjectPath)`);
* a filesystem model (finite map from resolved absolute segment paths to
  entries) and the file read / write / create and folder delete routes;
* UTF-8 encoding/decoding: `fs.readFile(p, 'utf8')` in Node never throws on
  malformed input, it substitutes U+FFFD, so decoding is modelled as a total
  function producing code points;
* `getFileTree` with its directory-first sort (`Array.prototype.sort` with a
  consistent comparator is modelled by stable insertion sort);
* `sanitizeFolderName` / `validateFolderName` from `folders.js`;
* the `GET /api/folders` listing with its newest-first sort.

JavaScript strings are modelled as `List Char` (and, where the code points
matter, as `List Nat` of Unicode scalar values); `localeCompare` is
host-locale dependent and is therefore abstracted as a comparator parameter.
-/

/-! ## Path model (POSIX)

`path.join(a, b, c)` for an absolute `a` concatenates the parts with `/` and
normalizes the result lexically (drops empty and `.` segments, resolves `..`
against the stack).  `path.resolve` on an absolute path performs the same
normalization.  We model both by splitting on `/`, normalizing the segment
list, and re-joining. -/
/-- A path segment: the characters between two slashes. -/
abbrev Seg := List Char

/-- Split a character list on `'/'` (the POSIX separator), keeping empty
segments, exactly like splitting a string on `"/"`. -/
def splitSlash (p : List Char) : List Seg :=
  p.foldr
    (fun c acc =>
      if c = '/' then [] :: acc
      else
        match acc with
        | s :: rest => (c :: s) :: rest
        | [] => [[c]])
    [[]]

/-- One step of lexical normalization: empty and `.` segments are dropped,
`..` pops the last accepted segment (or is dropped at the root), anything
else is pushed. -/
def normStep (stack : List Seg) (s : Seg) : List Seg :=
  if s = [] then stack
  else if s = ['.'] then stack
  else if s = ['.', '.'] then stack.dropLast
  else stack ++ [s]

/-- Segment list of the fully resolved form of an absolute path string:
model of `path.resolve` restricted to absolute inputs (the routes only ever
resolve paths rooted at the absolute workspace path). -/
def resolveSegs (p : List Char) : List Seg :=
  (splitSlash p).foldl normStep []

/-- Re-join resolved segments into the canonical absolute path string
(`/a/b/c`; the empty segment list is the root `/`). -/
def joinSegsAbs (segs : List Seg) : List Char :=
  match segs with
  | [] => ['/']
  | _ => segs.foldl (fun acc s => acc ++ '/' :: s) []

/-- Model of `path.resolve` on an absolute input: canonical string form. -/
def resolveAbs (p : List Char) : List Char :=
  joinSegsAbs (resolveSegs p)

/-- The string `path.join(workspacePath, projectName, filePath)` followed by
`path.resolve`, as computed by every `/file/*` and `/folder/*` route of
`project.js` (`path.join` on an absolute first part already normalizes, and
`path.resolve` is then the identity, so both steps collapse to one
normalization of the slash-concatenation). -/
def resolvedTarget (ws pn fp : List Char) : List Char :=
  resolveAbs (ws ++ '/' :: pn ++ '/' :: fp)

/-- `path.resolve(path.join(workspacePath, projectName))`: the project root
the routes compare against. -/
def resolvedProject (ws pn : List Char) : List Char :=
  resolveAbs (ws ++ '/' :: pn)

/-- The security check of the `/file/*` and `/folder/*` routes in
`project.js`: `resolvedPath.startsWith(resolvedProjectPath)` — a plain
string-prefix test. -/
def securityCheck (ws pn fp : List Char) : Bool :=
  (resolvedProject ws pn).isPrefixOf (resolvedTarget ws pn fp)

/-- Modelled from the spec (for comparison with `securityCheck`): the
containment test the specification prescribes — the resolved target equals
the resolved root, or extends it with a path separator immediately after. -/
def specConfined (target root : List Char) : Bool :=
  target = root || (root ++ ['/']).isPrefixOf target

/-! ## Filesystem model

A filesystem state is a finite map from resolved absolute paths (segment
lists) to entries.  Insertion shadows: `find` reads the most recent
binding. -/
/-- A filesystem entry: a regular file with content bytes and mtime, or a
directory with a stat-reported size and mtime (`stat.size` of a directory
is platform-dependent and *not* zero in general, e.g. 4096 on ext4). -/
inductive Entry where
  | file (content : List Nat) (mtime : Nat)
  | dir (size mtime : Nat)
deriving DecidableEq, Repr

/-- `stat.size`: byte length for files, the stored platform value for
directories. -/
def Entry.size : Entry → Nat
  | .file c _ => c.length
  | .dir s _ => s

/-- Is the entry a directory? -/
def Entry.isDir : Entry → Bool
  | .file _ _ => false
  | .dir _ _ => true

/-- Filesystem state: association list, most recent binding wins. -/
abbrev FS := List (List Seg × Entry)

/-- Look up the entry at a resolved path (model of `fs.stat` /
`fs.access`). -/
def FS.find : FS → List Seg → Option Entry
  | [], _ => none
  | (k, e) :: rest, p => if k = p then some e else FS.find rest p

/-- Create or overwrite the entry at a path. -/
def FS.insert (fs : FS) (p : List Seg) (e : Entry) : FS :=
  (p, e) :: fs

/-- Recursive removal (model of `fs.rm(p, {recursive: true, force: true})`):
drops the entry at `p` and every entry strictly below it. -/
def FS.removeTree (fs : FS) (p : List Seg) : FS :=
  fs.filter (fun kv => ¬ p.isPrefixOf kv.1)

/-! ## The workspace folder DELETE route (`folders.js`)

`DELETE /api/folders/:folderName` joins the client-supplied name onto the
workspace path and, **without any confinement check**, stats the result and
recursively removes it when it is a directory. -/
/-- Outcome of `DELETE /api/folders/:folderName`. -/
inductive DeleteFolderRes where
  | notFound404
  | notFolder400
  | deleted200
deriving DecidableEq, Repr

/-- Model of the `DELETE /api/folders/:folderName` handler: no security
check appears in the source; the joined path is statted and removed
directly. -/
def deleteFolderRoute (fs : FS) (ws folderName : List Char) :
    DeleteFolderRes × FS :=
  let folderSegs := resolveSegs (ws ++ '/' :: folderName)
  match fs.find folderSegs with
  | none => (.notFound404, fs)
  | some (.file _ _) => (.notFolder400, fs)
  | some (.dir _ _) => (.deleted200, fs.removeTree folderSegs)

/-! ## Claim C1 / C2 evidence -/
/-- Character list of a string literal (convenience for concrete inputs). -/
def chars (s : String) : List Char := s.data

/-- Concrete filesystem for the C2 evidence: the workspace root is
`/data/workspace`; `/data/secret` is a file *outside* it. -/
def c2fs : FS :=
  [([chars "data"], .dir 4096 0),
   ([chars "data", chars "workspace"], .dir 4096 0),
   ([chars "data", chars "secret"], .file [42] 0)]

/-! ## UTF-8 model

`fs.readFile(p, 'utf8')` decodes the file's bytes to a JavaScript string.
Node's UTF-8 decoding is total: malformed sequences become U+FFFD, it never
throws, so the `catch` branch of the read route is unreachable and decoding
is modelled as a total function from bytes to code points.  `fs.writeFile`
encodes the string back to UTF-8 bytes. -/
/-- A Unicode scalar value (what a well-formed JavaScript string's code
points are; lone surrogates do not survive a write/read through UTF-8 and
are outside this model). -/
def validScalar (n : Nat) : Bool := n < 0xD800 || (0xE000 ≤ n && n < 0x110000)

/-- UTF-8 encoding of one scalar value. -/
def utf8EncodeChar (n : Nat) : List Nat :=
  if n < 0x80 then [n]
  else if n < 0x800 then [0xC0 + n / 64, 0x80 + n % 64]
  else if n < 0x10000 then [0xE0 + n / 4096, 0x80 + n / 64 % 64, 0x80 + n % 64]
  else [0xF0 + n / 262144, 0x80 + n / 4096 % 64, 0x80 + n / 64 % 64, 0x80 + n % 64]

/-- UTF-8 encoding of a string (list of code points) to bytes: model of
`Buffer.from(s, 'utf8')` as performed by `fs.writeFile(p, s, 'utf8')`. -/
def utf8Encode : List Nat → List Nat
  | [] => []
  | c :: cs => utf8EncodeChar c ++ utf8Encode cs

/-- Lower bound for the first continuation byte of a 3-byte sequence
(guards against overlong forms and surrogates). -/
def cont3lo (b : Nat) : Nat := if b = 0xE0 then 0xA0 else 0x80

/-- Upper bound for the first continuation byte of a 3-byte sequence. -/
def cont3hi (b : Nat) : Nat := if b = 0xED then 0x9F else 0xBF

/-- Lower bound for the first continuation byte of a 4-byte sequence. -/
def cont4lo (b : Nat) : Nat := if b = 0xF0 then 0x90 else 0x80

/-- Upper bound for the first continuation byte of a 4-byte sequence. -/
def cont4hi (b : Nat) : Nat := if b = 0xF4 then 0x8F else 0xBF

/-- Is `b` a UTF-8 continuation byte? -/
def isCont (b : Nat) : Bool := 0x80 ≤ b && b < 0xC0

/-- One decoding step: given the lead byte and the remaining bytes, the
decoded code point (U+FFFD on malformed input) and how many additional
bytes were consumed. -/
def decStep (b : Nat) (rest : List Nat) : Nat × Nat :=
  if b < 0x80 then (b, 0)
  else if b < 0xC2 then (0xFFFD, 0)
  else if b < 0xE0 then
    match rest with
    | b1 :: _ =>
      if isCont b1 then ((b - 0xC0) * 64 + (b1 - 0x80), 1) else (0xFFFD, 0)
    | _ => (0xFFFD, 0)
  else if b < 0xF0 then
    match rest with
    | b1 :: b2 :: _ =>
      if (cont3lo b ≤ b1 && b1 ≤ cont3hi b) && isCont b2 then
        ((b - 0xE0) * 4096 + (b1 - 0x80) * 64 + (b2 - 0x80), 2)
      else (0xFFFD, 0)
    | _ => (0xFFFD, 0)
  else if b < 0xF5 then
    match rest with
    | b1 :: b2 :: b3 :: _ =>
      if (cont4lo b ≤ b1 && b1 ≤ cont4hi b) && isCont b2 && isCont b3 then
        ((b - 0xF0) * 262144 + (b1 - 0x80) * 4096 + (b2 - 0x80) * 64 + (b3 - 0x80), 3)
      else (0xFFFD, 0)
    | _ => (0xFFFD, 0)
  else (0xFFFD, 0)

/-- Fuel-indexed UTF-8 decoding (structural, so that concrete route results
reduce in the kernel); one unit of fuel per decoded code point suffices. -/
def utf8DecodeAux : Nat → List Nat → List Nat
  | 0, _ => []
  | _, [] => []
  | fuel + 1, b :: rest =>
    (decStep b rest).1 :: utf8DecodeAux fuel (rest.drop (decStep b rest).2)

/-- Total UTF-8 decoding with U+FFFD substitution: model of reading a file
with encoding `'utf8'` in Node (which never throws on malformed bytes). -/
def utf8Decode (l : List Nat) : List Nat := utf8DecodeAux l.length l

/-- The control-character test of the read route: the regular expression
`/[\x00-\x08\x0E-\x1F\x7F-\x9F]/` holds of a code point. -/
def bannedCodePoint (n : Nat) : Bool :=
  n ≤ 0x08 || (0x0E ≤ n && n ≤ 0x1F) || (0x7F ≤ n && n ≤ 0x9F)

/-! ## File routes of `project.js`

Each `/file/*` handler computes `fullFilePath = path.join(ws, projectName,
filePath)`, runs the `startsWith` security check, and then operates on the
filesystem.  `path.join` on the absolute workspace path already yields the
resolved path, so the filesystem is addressed by `resolveSegs` of the
slash-concatenation. -/
/-- The resolved filesystem address of a `/file/*` request: segments of
`path.join(workspacePath, projectName, filePath)`. -/
def targetSegs (ws pn fp : List Char) : List Seg :=
  resolveSegs (ws ++ '/' :: pn ++ '/' :: fp)

/-- `path.basename` of a resolved path: its last segment. -/
def baseName (segs : List Seg) : Seg := (segs.getLast?).getD []

/-- `path.extname` on a file name (no separators): the suffix from the last
`.`, empty when there is no `.` past the first character. -/
def extname (name : List Char) : List Char :=
  match (name.reverse).findIdx? (fun c => c = '.') with
  | none => []
  | some k =>
    let i := name.length - 1 - k
    if i = 0 then [] else name.drop i

/-- `filePath.replace(/\\/g, '/')`: forward-slash normalization applied to
the echoed path. -/
def slashify (p : List Char) : List Char :=
  p.map (fun c => if c = '\\' then '/' else c)

/-- The 10 MiB read cap of the read route (`10 * 1024 * 1024`). -/
def sizeCap : Nat := 10 * 1024 * 1024

/-- The `file` object of a successful `GET .../file/*` response.  `content`
holds decoded code points (`none` models JavaScript `null`). -/
structure FileContent where
  name : Seg
  path : List Char
  extension : List Char
  size : Nat
  modified : Nat
  content : Option (List Nat)
  isBinary : Bool
  type : String
deriving DecidableEq, Repr

/-- Outcome of `GET /api/project/:projectName/file/*`. -/
inductive ReadRes where
  | escape403
  | notFound404
  | isDir400
  | tooLarge413
  | ok (file : FileContent)
deriving DecidableEq, Repr

/-- The file, when the read succeeded. -/
def ReadRes.fileOf : ReadRes → Option FileContent
  | .ok fc => some fc
  | _ => none

/-- Model of the `GET .../file/*` handler: security check, then stat
(404 when missing, 400 for a directory, 413 above the cap — the content is
only decoded after the size check passes), then binary classification via
the control-character regular expression. -/
def readFileRoute (fs : FS) (ws pn fp : List Char) : ReadRes :=
  if ¬ securityCheck ws pn fp then .escape403
  else
    let segs := targetSegs ws pn fp
    match fs.find segs with
    | none => .notFound404
    | some (.dir _ _) => .isDir400
    | some (.file content mtime) =>
      if content.length > sizeCap then .tooLarge413
      else
        let decoded := utf8Decode content
        let bin := decoded.any (fun c => bannedCodePoint c)
        .ok { name := baseName segs
              path := slashify fp
              extension := extname (baseName segs)
              size := content.length
              modified := mtime
              content := if bin then none else some decoded
              isBinary := bin
              type := if bin then "binary" else "text" }

/-- The nonempty prefixes of a segment path, shortest first: the chain of
directories `fs.mkdir(dir, {recursive: true})` ensures. -/
def prefixList : List Seg → List (List Seg)
  | [] => []
  | s :: rest => [s] :: (prefixList rest).map (fun p => s :: p)

/-- Model of `fs.mkdir(dir, {recursive: true})` over the prefix chain:
existing directories are kept, a file in the way aborts (`none`, the route
then answers 500), missing directories are created (with the
platform-reported directory size).  The partially-created state of an
aborted call is not observed by any route and is not modelled. -/
def mkdirp (fs : FS) (t : Nat) : List (List Seg) → Option FS
  | [] => some fs
  | p :: ps =>
    match fs.find p with
    | some (.dir _ _) => mkdirp fs t ps
    | some (.file _ _) => none
    | none => mkdirp (fs.insert p (.dir 4096 t)) t ps

/-- The request body of the PUT route: `content` is either a string or
something else (`typeof content !== 'string'`). -/
inductive JsVal where
  | str (s : List Nat)
  | nonStr
deriving DecidableEq, Repr

/-- The `file` object of a successful PUT response. -/
structure WriteMeta where
  name : Seg
  path : List Char
  size : Nat
  modified : Nat
deriving DecidableEq, Repr

/-- Outcome of `PUT /api/project/:projectName/file/*`. -/
inductive WriteRes where
  | escape403
  | invalid400
  | saved200 (file : WriteMeta)
  | err500
deriving DecidableEq, Repr

/-- Did the write succeed? -/
def WriteRes.isSaved : WriteRes → Bool
  | .saved200 _ => true
  | _ => false

/-- Model of the `PUT .../file/*` handler: security check, content-type
check (before any filesystem access), recursive parent creation, write
(UTF-8 encoding of the string; writing over a directory is `EISDIR`,
answered 500), then stat for the response metadata. -/
def writeFileRoute (fs : FS) (ws pn fp : List Char) (body : JsVal) (now : Nat) :
    WriteRes × FS :=
  if ¬ securityCheck ws pn fp then (.escape403, fs)
  else
    match body with
    | .nonStr => (.invalid400, fs)
    | .str content =>
      let segs := targetSegs ws pn fp
      match mkdirp fs now (prefixList segs.dropLast) with
      | none => (.err500, fs)
      | some fs1 =>
        match fs1.find segs with
        | some (.dir _ _) => (.err500, fs1)
        | _ =>
          let bytes := utf8Encode content
          (.saved200 { name := baseName segs
                       path := slashify fp
                       size := bytes.length
                       modified := now },
           fs1.insert segs (.file bytes now))

/-- The `file` object of a successful POST (create) response. -/
structure CreateMeta where
  name : Seg
  path : List Char
  size : Nat
  modified : Nat
  content : List Nat
deriving DecidableEq, Repr

/-- Outcome of `POST /api/project/:projectName/file/*`. -/
inductive CreateRes where
  | escape403
  | exists409
  | created201 (file : CreateMeta)
  | err500
deriving DecidableEq, Repr

/-- Model of the `POST .../file/*` handler: security check, `fs.access`
existence check (*any* entry, file or directory, yields 409 and leaves the
state untouched), recursive parent creation, exclusive-by-virtue-of-the-
check write.  `content` is the request's string body (default `''`). -/
def createFileRoute (fs : FS) (ws pn fp : List Char) (content : List Nat) (now : Nat) :
    CreateRes × FS :=
  if ¬ securityCheck ws pn fp then (.escape403, fs)
  else
    let segs := targetSegs ws pn fp
    match fs.find segs with
    | some _ => (.exists409, fs)
    | none =>
      match mkdirp fs now (prefixList segs.dropLast) with
      | none => (.err500, fs)
      | some fs1 =>
        let bytes := utf8Encode content
        (.created201 { name := baseName segs
                       path := slashify fp
                       size := bytes.length
                       modified := now
                       content := content },
         fs1.insert segs (.file bytes now))

/-! ## Folder-name sanitization (`folders.js`)

`sanitizeFolderName` strips the characters `<>:"/\|?*`, replaces every
whitespace run by a single hyphen, lowercases, and trims; its companion
`validateFolderName` rejects empty results, results longer than 50
characters, and the reserved device names.  `String.prototype.toLowerCase`
is modelled by `Char.toLower` (basic-latin lowercasing; the inputs the
validation is concerned with are ASCII device names). -/
/-- The stripped character set `<>:"/\|?*` of the first `replace`. -/
def invalidNameChar (c : Char) : Bool :=
  c = '<' || c = '>' || c = ':' || c = '"' || c = '/' || c = '\\' ||
  c = '|' || c = '?' || c = '*'

/-- JavaScript regular-expression `\s` (the class matched by the second
`replace` and by `trim`). -/
def jsWhitespace (c : Char) : Bool :=
  c = ' ' || c = '\t' || c = '\n' || c = '\r' || c = '\x0b' || c = '\x0c' ||
  c = '\u00A0' || c = '\u1680' || ('\u2000' ≤ c && c ≤ '\u200A') ||
  c = '\u2028' || c = '\u2029' || c = '\u202F' || c = '\u205F' ||
  c = '\u3000' || c = '\uFEFF'

/-- `replace(/\s+/g, '-')`: the flag records whether we are inside a
whitespace run that has already produced its hyphen. -/
def collapseWsAux (inRun : Bool) : List Char → List Char
  | [] => []
  | c :: rest =>
    if jsWhitespace c then
      if inRun then collapseWsAux true rest
      else '-' :: collapseWsAux true rest
    else c :: collapseWsAux false rest

/-- `replace(/\s+/g, '-')` on a whole string. -/
def collapseWs (s : List Char) : List Char := collapseWsAux false s

/-- `String.prototype.toLowerCase` (basic-latin model). -/
def toLowerJs (s : List Char) : List Char := s.map Char.toLower

/-- `String.prototype.trim`. -/
def trimJs (s : List Char) : List Char :=
  ((s.dropWhile (fun c => jsWhitespace c)).reverse.dropWhile
    (fun c => jsWhitespace c)).reverse

/-- `sanitizeFolderName` from `folders.js`: strip invalid characters, then
collapse whitespace runs to hyphens, then lowercase, then trim. -/
def sanitizeFolderName (name : List Char) : List Char :=
  trimJs (toLowerJs (collapseWs (name.filter (fun c => ¬ invalidNameChar c))))

/-- Result of `validateFolderName`. -/
inductive ValidateRes where
  | invalid (msg : String)
  | valid (sanitized : List Char)
deriving DecidableEq, Repr

/-- Was the name rejected? -/
def ValidateRes.isInvalid : ValidateRes → Bool
  | .invalid _ => true
  | .valid _ => false

/-- The reserved Windows device names of `validateFolderName`. -/
def reservedNames : List (List Char) :=
  [chars "con", chars "prn", chars "aux", chars "nul",
   chars "com1", chars "com2", chars "com3", chars "com4", chars "com5",
   chars "com6", chars "com7", chars "com8", chars "com9",
   chars "lpt1", chars "lpt2", chars "lpt3", chars "lpt4", chars "lpt5",
   chars "lpt6", chars "lpt7", chars "lpt8", chars "lpt9"]

/-- `validateFolderName` from `folders.js` (empty input models the falsy
`!name` guard; the non-string guard is outside the string model). -/
def validateFolderName (name : List Char) : ValidateRes :=
  if name = [] then .invalid "Folder name is required and must be a string"
  else
    let sanitized := sanitizeFolderName name
    if sanitized = [] then .invalid "Invalid folder name"
    else if 50 < sanitized.length then .invalid "Folder name too long (max 50 characters)"
    else if toLowerJs sanitized ∈ reservedNames then .invalid "Reserved folder name not allowed"
    else .valid sanitized

/-! ## The file tree (`getFileTree` in `project.js`)

`getFileTree` reads a directory, builds one node per entry (recursing into
subdirectories), and sorts each level with
`(a, b) => dirFirst || a.name.localeCompare(b.name)`.  The input directory
is modelled as an inductive tree carrying the data `readdir`/`stat`
provide; `localeCompare` is host-locale dependent and is abstracted as an
integer comparator parameter; `Array.prototype.sort`, which for a
consistent comparator produces the stable sorted order, is modelled by
stable insertion sort. -/
/-- A directory entry as the walk observes it (`readdir` name and kind,
`stat` size/mtime, recursive children for directories). -/
inductive DirEnt where
  | file (name : List Char) (content : List Nat) (mtime : Nat) : DirEnt
  | dir (name : List Char) (size mtime : Nat) (children : List DirEnt) : DirEnt

/-- One node of the JSON tree (`children`/`isExpanded` present only for
directories, `extension` null for them: exactly the fields the source
assembles). -/
inductive TreeNode where
  | mk (name : List Char) (path : List Char) (isDirectory : Bool) (size : Nat)
      (modified : Nat) (extension : Option (List Char))
      (children : Option (List TreeNode)) (isExpanded : Option Bool) : TreeNode

def TreeNode.name : TreeNode → List Char
  | .mk n _ _ _ _ _ _ _ => n

def TreeNode.path : TreeNode → List Char
  | .mk _ p _ _ _ _ _ _ => p

def TreeNode.isDirectory : TreeNode → Bool
  | .mk _ _ d _ _ _ _ _ => d

def TreeNode.size : TreeNode → Nat
  | .mk _ _ _ s _ _ _ _ => s

def TreeNode.modified : TreeNode → Nat
  | .mk _ _ _ _ m _ _ _ => m

def TreeNode.extension : TreeNode → Option (List Char)
  | .mk _ _ _ _ _ e _ _ => e

def TreeNode.children : TreeNode → Option (List TreeNode)
  | .mk _ _ _ _ _ _ c _ => c

def TreeNode.isExpanded : TreeNode → Option Bool
  | .mk _ _ _ _ _ _ _ x => x

/-- `path.join(basePath, item.name).replace(/\\/g, '/')` (readdir names
contain no separators, so joining is concatenation; `path.join('', n)` is
`n`). -/
def relPath (basePath name : List Char) : List Char :=
  slashify (if basePath = [] then name else basePath ++ '/' :: name)

/-- The sort comparator of `getFileTree`: directories first, ties by
`localeCompare` (the parameter `lc`). -/
def nodeCmp (lc : List Char → List Char → Int) (a b : TreeNode) : Int :=
  if a.isDirectory && !b.isDirectory then -1
  else if !a.isDirectory && b.isDirectory then 1
  else lc a.name b.name

/-- "`a` sorts no later than `b`" under the comparator. -/
def nodeLE (lc : List Char → List Char → Int) (a b : TreeNode) : Prop :=
  nodeCmp lc a b ≤ 0

instance (lc : List Char → List Char → Int) : DecidableRel (nodeLE lc) :=
  fun a b => inferInstanceAs (Decidable (nodeCmp lc a b ≤ 0))

mutual

/-- The `node` object built for one entry (recursing for directories). -/
def entryNode (lc : List Char → List Char → Int) (basePath : List Char) :
    DirEnt → TreeNode
  | .file n c m =>
    .mk n (relPath basePath n) false c.length m (some (extname n)) none none
  | .dir n s m ch =>
    .mk n (relPath basePath n) true s m none
      (some (List.insertionSort (nodeLE lc)
        (mapNodes lc (relPath basePath n) ch)))
      (some false)

/-- The unsorted node list of one directory level. -/
def mapNodes (lc : List Char → List Char → Int) (basePath : List Char) :
    List DirEnt → List TreeNode
  | [] => []
  | e :: es => entryNode lc basePath e :: mapNodes lc basePath es

end

/-- `getFileTree`: nodes of all entries, sorted directories-first then by
name comparator. -/
def getFileTree (lc : List Char → List Char → Int) (entries : List DirEnt)
    (basePath : List Char) : List TreeNode :=
  List.insertionSort (nodeLE lc) (mapNodes lc basePath entries)

/-- Boolean pairwise-sortedness of one level. -/
def pairwiseLE (lc : List Char → List Char → Int) : List TreeNode → Bool
  | [] => true
  | a :: l => l.all (fun b => decide (nodeCmp lc a b ≤ 0)) && pairwiseLE lc l

mutual

/-- Every directory level below this node is pairwise sorted. -/
def nodeSortedOk (lc : List Char → List Char → Int) : TreeNode → Bool
  | .mk _ _ _ _ _ _ none _ => true
  | .mk _ _ _ _ _ _ (some cs) _ => pairwiseLE lc cs && nodesSortedOk lc cs

/-- Every directory level below any of these nodes is pairwise sorted. -/
def nodesSortedOk (lc : List Char → List Char → Int) : List TreeNode → Bool
  | [] => true
  | n :: ns => nodeSortedOk lc n && nodesSortedOk lc ns

end

mutual

/-- All nodes of a tree, the node itself included. -/
def flattenNode : TreeNode → List TreeNode
  | .mk n p d s m e none x => [.mk n p d s m e none x]
  | .mk n p d s m e (some cs) x => .mk n p d s m e (some cs) x :: flattenNodes cs

/-- All nodes of a forest. -/
def flattenNodes : List TreeNode → List TreeNode
  | [] => []
  | n :: ns => flattenNode n ++ flattenNodes ns

end

/-- A concrete name comparator (code-point lexicographic), standing in for
the host's `localeCompare` in concrete evaluations. -/
def chCmp (x y : List Char) : Int := if x < y then -1 else if y < x then 1 else 0

/-- The shape every produced node has (amended from C9: the size of a
directory node is the stat-reported value, not 0). -/
def nodeShape (node : TreeNode) : Prop :=
  (node.isDirectory = true →
    node.extension = none ∧ node.children.isSome = true ∧
    node.isExpanded = some false) ∧
  (node.isDirectory = false →
    node.extension = some (extname node.name) ∧ node.children = none ∧
    node.isExpanded = none) ∧
  (∀ c ∈ node.path, c ≠ '\\')

/-! ## `GET /api/folders` (`folders.js`)

The listing keeps the directory entries of the workspace, stats each one
(on a stat failure the folder is still included, with `new Date()` for both
timestamps and size 0), and sorts by creation date, newest first. -/
/-- A workspace entry as the route observes it: `readdir` name and kind and
the result of `fs.stat` (`none` models a stat failure). -/
structure WorkItem where
  name : List Char
  isDirectory : Bool
  stats : Option (Nat × Nat × Nat)

/-- One element of the `folders` response array. -/
structure FolderInfo where
  name : List Char
  path : List Char
  created : Nat
  modified : Nat
  size : Nat
deriving DecidableEq, Repr

/-- The folder object pushed for one directory entry (`birthtime`,
`mtime`, `size` from stat; the current time and size 0 when stat failed). -/
def folderOf (ws : List Char) (now : Nat) (it : WorkItem) : FolderInfo :=
  match it.stats with
  | some (c, m, s) =>
    { name := it.name, path := resolveAbs (ws ++ '/' :: it.name),
      created := c, modified := m, size := s }
  | none =>
    { name := it.name, path := resolveAbs (ws ++ '/' :: it.name),
      created := now, modified := now, size := 0 }

/-- Model of the `GET /api/folders` handler body: non-directories are
skipped, each directory becomes a folder object, and the array is sorted by
`(a, b) => new Date(b.created) - new Date(a.created)` — descending creation
time. -/
def listFoldersRoute (ws : List Char) (now : Nat) (items : List WorkItem) :
    List FolderInfo :=
  List.insertionSort (fun a b => b.created ≤ a.created)
    ((items.filter (fun it => it.isDirectory)).map (folderOf ws now))

/-! ## Theorems -/

theorem FS.find_insert_self (fs : FS) (p : List Seg) (e : Entry) :
    (fs.insert p e).find p = some e := by
  simp [FS.insert, FS.find]

theorem FS.find_insert_ne (fs : FS) (p q : List Seg) (e : Entry)
    (h : q ≠ p) : (fs.insert p e).find q = fs.find q := by
  simp only [FS.insert, FS.find]
  rw [if_neg]
  intro h'
  exact h h'.symm

/-- C1: the spec requires acceptance exactly when the resolved target equals
the resolved root or extends it with a separator right after, every escape
being rejected with a 403.  The code's check is a bare
`resolvedPath.startsWith(resolvedProjectPath)`: with workspace `/ws`,
project `proj` and client path `../proj2/secret`, the joined path resolves
to `/ws/proj2/secret`, which lies outside the project root `/ws/proj`, yet
the check accepts it (string-prefix match without a separator), so the
filesystem is then touched at an escaped path.  This contradicts the code's
own comment ("ensure file is within the project directory"): the claim is
right and the code has the classic prefix-match slip. -/
theorem c1_security_check_accepts_sibling_escape :
    securityCheck (chars "/ws") (chars "proj") (chars "../proj2/secret") = true ∧
    resolvedTarget (chars "/ws") (chars "proj") (chars "../proj2/secret") =
      chars "/ws/proj2/secret" ∧
    specConfined
      (resolvedTarget (chars "/ws") (chars "proj") (chars "../proj2/secret"))
      (resolvedProject (chars "/ws") (chars "proj")) = false := by
  decide

/-- C2: the claim says the confinement check runs before every filesystem
read or mutation triggered by a client-supplied path, so nothing outside
the workspace root is ever exposed, created or deleted.  The
`DELETE /api/folders/:folderName` handler has no such check: with
`folderName = ".."` it resolves to the *parent* of the workspace root,
stats it, and recursively deletes it — here erasing `/data/secret`, an
entry outside the root.  The claim is right and the code omits the check
in the workspace folder routes (and in `GET /:projectName`). -/
theorem c2_delete_route_escapes_workspace :
    (deleteFolderRoute c2fs (chars "/data/workspace") (chars "..")).1 =
      DeleteFolderRes.deleted200 ∧
    ((deleteFolderRoute c2fs (chars "/data/workspace") (chars "..")).2).find
      [chars "data", chars "secret"] = none ∧
    c2fs.find [chars "data", chars "secret"] = some (.file [42] 0) ∧
    specConfined (resolveAbs (chars "/data/workspace/.."))
      (resolveAbs (chars "/data/workspace")) = false := by
  decide

theorem utf8DecodeAux_congr :
    ∀ (f : Nat) (l : List Nat) (g : Nat), l.length ≤ f → l.length ≤ g →
      utf8DecodeAux f l = utf8DecodeAux g l := by
  intro f
  induction f with
  | zero =>
    intro l g hf _
    have : l = [] := List.length_eq_zero.mp (Nat.le_zero.mp hf)
    subst this
    cases g <;> rfl
  | succ f ih =>
    intro l g hf hg
    cases l with
    | nil => cases g <;> rfl
    | cons b rest =>
      cases g with
      | zero => simp at hg
      | succ g =>
        simp only [utf8DecodeAux]
        congr 1
        have hd : (rest.drop (decStep b rest).2).length ≤ rest.length := by
          rw [List.length_drop]
          omega
        simp only [List.length_cons] at hf hg
        exact ih _ g (by omega) (by omega)

theorem utf8Decode_nil : utf8Decode [] = [] := rfl

theorem utf8Decode_cons (b : Nat) (rest : List Nat) :
    utf8Decode (b :: rest) =
      (decStep b rest).1 :: utf8Decode (rest.drop (decStep b rest).2) := by
  show utf8DecodeAux (b :: rest).length (b :: rest) = _
  simp only [List.length_cons, utf8DecodeAux]
  congr 1
  exact utf8DecodeAux_congr rest.length _ _
    (by rw [List.length_drop]; omega) (le_refl _)

theorem utf8Decode_ascii (b : Nat) (hb : b < 0x80) (rest : List Nat) :
    utf8Decode (b :: rest) = b :: utf8Decode rest := by
  rw [utf8Decode_cons]
  simp [decStep, hb]

theorem utf8Decode_two (b b1 : Nat) (r : List Nat) (h1 : 0xC2 ≤ b) (h2 : b < 0xE0)
    (h3 : isCont b1 = true) :
    utf8Decode (b :: b1 :: r) = ((b - 0xC0) * 64 + (b1 - 0x80)) :: utf8Decode r := by
  rw [utf8Decode_cons]
  have e1 : ¬ b < 0x80 := by omega
  have e2 : ¬ b < 0xC2 := by omega
  simp [decStep, e1, e2, h2, h3]

theorem utf8Decode_three (b b1 b2 : Nat) (r : List Nat) (h1 : 0xE0 ≤ b) (h2 : b < 0xF0)
    (h3 : cont3lo b ≤ b1) (h4 : b1 ≤ cont3hi b) (h5 : isCont b2 = true) :
    utf8Decode (b :: b1 :: b2 :: r) =
      ((b - 0xE0) * 4096 + (b1 - 0x80) * 64 + (b2 - 0x80)) :: utf8Decode r := by
  rw [utf8Decode_cons]
  have e1 : ¬ b < 0x80 := by omega
  have e2 : ¬ b < 0xC2 := by omega
  have e3 : ¬ b < 0xE0 := by omega
  simp [decStep, e1, e2, e3, h2, h3, h4, h5]

theorem utf8Decode_four (b b1 b2 b3 : Nat) (r : List Nat) (h1 : 0xF0 ≤ b) (h2 : b < 0xF5)
    (h3 : cont4lo b ≤ b1) (h4 : b1 ≤ cont4hi b) (h5 : isCont b2 = true)
    (h6 : isCont b3 = true) :
    utf8Decode (b :: b1 :: b2 :: b3 :: r) =
      ((b - 0xF0) * 262144 + (b1 - 0x80) * 4096 + (b2 - 0x80) * 64 + (b3 - 0x80)) ::
        utf8Decode r := by
  rw [utf8Decode_cons]
  have e1 : ¬ b < 0x80 := by omega
  have e2 : ¬ b < 0xC2 := by omega
  have e3 : ¬ b < 0xE0 := by omega
  have e4 : ¬ b < 0xF0 := by omega
  simp [decStep, e1, e2, e3, e4, h2, h3, h4, h5, h6]

set_option maxRecDepth 8192 in
/-- Decoding inverts encoding, one scalar at a time. -/
theorem utf8Decode_encodeChar (n : Nat) (h : validScalar n = true) (rest : List Nat) :
    utf8Decode (utf8EncodeChar n ++ rest) = n :: utf8Decode rest := by
  have hv : n < 0xD800 ∨ (0xE000 ≤ n ∧ n < 0x110000) := by
    simpa [validScalar, Bool.or_eq_true, decide_eq_true_eq] using h
  by_cases c1 : n < 0x80
  · simp only [utf8EncodeChar, if_pos c1, List.cons_append, List.nil_append]
    exact utf8Decode_ascii n c1 rest
  · by_cases c2 : n < 0x800
    · simp only [utf8EncodeChar, if_neg c1, if_pos c2, List.cons_append, List.nil_append]
      rw [utf8Decode_two]
      · congr 1
        omega
      · omega
      · omega
      · simp only [isCont, Bool.and_eq_true, decide_eq_true_eq]
        omega
    · by_cases c3 : n < 0x10000
      · simp only [utf8EncodeChar, if_neg c1, if_neg c2, if_pos c3, List.cons_append,
          List.nil_append]
        rw [utf8Decode_three]
        · congr 1
          omega
        · omega
        · omega
        · unfold cont3lo
          split
          · rename_i he
            omega
          · omega
        · unfold cont3hi
          split
          · rename_i he
            rcases hv with hv | hv <;> omega
          · omega
        · simp only [isCont, Bool.and_eq_true, decide_eq_true_eq]
          omega
      · rcases hv with hv | hv
        · omega
        · simp only [utf8EncodeChar, if_neg c1, if_neg c2, if_neg c3, List.cons_append,
            List.nil_append]
          rw [utf8Decode_four]
          · congr 1
            omega
          · omega
          · omega
          · unfold cont4lo
            split
            · rename_i he
              omega
            · omega
          · unfold cont4hi
            split
            · rename_i he
              omega
            · omega
          · simp only [isCont, Bool.and_eq_true, decide_eq_true_eq]
            omega
          · simp only [isCont, Bool.and_eq_true, decide_eq_true_eq]
            omega

/-- Write/read byte-level round trip: decoding the UTF-8 encoding of a
well-formed string gives the string back. -/
theorem utf8Decode_encode (s : List Nat) (h : ∀ c ∈ s, validScalar c = true) :
    utf8Decode (utf8Encode s) = s := by
  induction s with
  | nil => simp [utf8Encode, utf8Decode_nil]
  | cons c cs ih =>
    rw [utf8Encode, utf8Decode_encodeChar c (h c (by simp)) (utf8Encode cs),
      ih (fun x hx => h x (by simp [hx]))]

/-- On pure ASCII bytes, encoding is the identity. -/
theorem utf8Encode_ascii (s : List Nat) (h : ∀ c ∈ s, c < 0x80) :
    utf8Encode s = s := by
  induction s with
  | nil => rfl
  | cons c cs ih =>
    rw [utf8Encode, utf8EncodeChar, if_pos (h c (by simp)),
      ih (fun x hx => h x (by simp [hx]))]
    rfl

/-- On pure ASCII bytes, decoding is the identity. -/
theorem utf8Decode_asciiList (s : List Nat) (h : ∀ c ∈ s, c < 0x80) :
    utf8Decode s = s := by
  induction s with
  | nil => exact utf8Decode_nil
  | cons c cs ih =>
    rw [utf8Decode_ascii c (h c (by simp)), ih (fun x hx => h x (by simp [hx]))]

/-! ### Helper lemmas about `mkdirp` and `prefixList` -/
theorem prefixList_mem_length :
    ∀ (l : List Seg) (p : List Seg), p ∈ prefixList l → p.length ≤ l.length := by
  intro l
  induction l with
  | nil => intro p hp; simp [prefixList] at hp
  | cons s rest ih =>
    intro p hp
    simp only [prefixList, List.mem_cons, List.mem_map] at hp
    rcases hp with rfl | ⟨q, hq, rfl⟩
    · simp
    · have := ih q hq
      simp only [List.length_cons]
      omega

theorem prefixList_dropLast_length (segs : List Seg) (p : List Seg)
    (hp : p ∈ prefixList segs.dropLast) : p.length < segs.length := by
  cases segs with
  | nil => simp [prefixList] at hp
  | cons a l =>
    have h1 := prefixList_mem_length _ p hp
    have h2 : ((a :: l).dropLast).length = l.length := by
      rw [List.length_dropLast]
      simp
    rw [h2] at h1
    simp only [List.length_cons]
    omega

theorem mkdirp_find_of_longer (t : Nat) :
    ∀ (ps : List (List Seg)) (fs fs' : FS) (q : List Seg),
      mkdirp fs t ps = some fs' → (∀ p ∈ ps, p.length < q.length) →
      fs'.find q = fs.find q := by
  intro ps
  induction ps with
  | nil => intro fs fs' q h _; simp [mkdirp] at h; rw [h]
  | cons p ps ih =>
    intro fs fs' q h hlen
    rw [mkdirp] at h
    cases hf : fs.find p with
    | some e =>
      cases e with
      | dir s m =>
        rw [hf] at h
        exact ih fs fs' q h (fun x hx => hlen x (by simp [hx]))
      | file c m => rw [hf] at h; exact absurd h (by simp)
    | none =>
      rw [hf] at h
      have hne : q ≠ p := by
        intro he
        have := hlen p (by simp)
        rw [he] at this
        omega
      rw [ih _ fs' q h (fun x hx => hlen x (by simp [hx]))]
      exact FS.find_insert_ne fs p q _ hne

theorem mkdirp_find_or_dir (t : Nat) :
    ∀ (ps : List (List Seg)) (fs fs' : FS), mkdirp fs t ps = some fs' →
      ∀ q, fs'.find q = fs.find q ∨ ∃ s m, fs'.find q = some (.dir s m) := by
  intro ps
  induction ps with
  | nil => intro fs fs' h q; simp [mkdirp] at h; rw [h]; exact Or.inl rfl
  | cons p ps ih =>
    intro fs fs' h q
    rw [mkdirp] at h
    cases hf : fs.find p with
    | some e =>
      cases e with
      | dir s m => rw [hf] at h; exact ih fs fs' h q
      | file c m => rw [hf] at h; exact absurd h (by simp)
    | none =>
      rw [hf] at h
      rcases ih _ fs' h q with heq | hdir
      · by_cases hqp : q = p
        · subst hqp
          rw [FS.find_insert_self] at heq
          exact Or.inr ⟨4096, t, heq⟩
        · rw [FS.find_insert_ne fs p q _ hqp] at heq
          exact Or.inl heq
      · exact Or.inr hdir

theorem mkdirp_creates (t : Nat) :
    ∀ (ps : List (List Seg)) (fs fs' : FS), mkdirp fs t ps = some fs' →
      ∀ p ∈ ps, ∃ s m, fs'.find p = some (.dir s m) := by
  intro ps
  induction ps with
  | nil => intro fs fs' _ p hp; simp at hp
  | cons p0 ps ih =>
    intro fs fs' h p hp
    rw [mkdirp] at h
    rcases List.mem_cons.mp hp with rfl | hmem
    · cases hf : fs.find p with
      | some e =>
        cases e with
        | dir s m =>
          rw [hf] at h
          rcases mkdirp_find_or_dir t ps fs fs' h p with heq | hdir
          · exact ⟨s, m, by rw [heq, hf]⟩
          · exact hdir
        | file c m => rw [hf] at h; exact absurd h (by simp)
      | none =>
        rw [hf] at h
        rcases mkdirp_find_or_dir t ps _ fs' h p with heq | hdir
        · exact ⟨4096, t, by rw [heq, FS.find_insert_self]⟩
        · exact hdir
    · cases hf : fs.find p0 with
      | some e =>
        cases e with
        | dir s m => rw [hf] at h; exact ih fs fs' h p hmem
        | file c m => rw [hf] at h; exact absurd h (by simp)
      | none => rw [hf] at h; exact ih _ fs' h p hmem

/-! ### Decoding facts used by the read-route claims -/
theorem cont3lo_ge (b : Nat) : 0x80 ≤ cont3lo b := by
  unfold cont3lo; split <;> omega

theorem cont4lo_ge (b : Nat) : 0x80 ≤ cont4lo b := by
  unfold cont4lo; split <;> omega

/-- A zero byte is never consumed as part of a multi-byte sequence
(continuation bytes are at least `0x80`). -/
theorem decStep_keeps_zero (b : Nat) (rest : List Nat) (h0 : 0 ∈ rest) :
    0 ∈ rest.drop (decStep b rest).2 := by
  unfold decStep
  split_ifs with hb1 hb2 hb3 hb4 hb5
  · simpa using h0
  · simpa using h0
  · split
    · rename_i b1 tail
      split_ifs with hc
      · simp only [isCont, Bool.and_eq_true, decide_eq_true_eq] at hc
        rcases List.mem_cons.mp h0 with h | h
        · omega
        · simpa using h
      · simpa using h0
    · simpa using h0
  · split
    · rename_i b1 b2 tail
      split_ifs with hc
      · simp only [isCont, Bool.and_eq_true, decide_eq_true_eq] at hc
        have hlo := cont3lo_ge b
        rcases List.mem_cons.mp h0 with h | h
        · omega
        · rcases List.mem_cons.mp h with h' | h'
          · omega
          · simpa using h'
      · simpa using h0
    · simpa using h0
  · split
    · rename_i b1 b2 b3 tail
      split_ifs with hc
      · simp only [isCont, Bool.and_eq_true, decide_eq_true_eq] at hc
        have hlo := cont4lo_ge b
        rcases List.mem_cons.mp h0 with h | h
        · omega
        · rcases List.mem_cons.mp h with h' | h'
          · omega
          · rcases List.mem_cons.mp h' with h'' | h''
            · omega
            · simpa using h''
      · simpa using h0
    · simpa using h0
  · simpa using h0

/-- A file containing a zero byte decodes to a text containing the code
point zero. -/
theorem zero_mem_utf8Decode : ∀ (c : List Nat), 0 ∈ c → 0 ∈ utf8Decode c
  | [], h => by simp at h
  | b :: rest, h => by
    rw [utf8Decode_cons]
    by_cases hb : b = 0
    · subst hb
      simp [decStep]
    · have h0 : 0 ∈ rest := by
        rcases List.mem_cons.mp h with h' | h'
        · exact absurd h'.symm hb
        · exact h'
      exact List.mem_cons.mpr (Or.inr
        (zero_mem_utf8Decode (rest.drop (decStep b rest).2) (decStep_keeps_zero b rest h0)))
termination_by c => c.length
decreasing_by
  simp only [List.length_cons, List.length_drop]
  omega

/-- C4: on an existing, security-cleared target, the read route answers 400
when the target is a directory (checked first), 413 when the stat size
exceeds 10 MiB — for *every* possible content of that length, without the
content being decoded (the size guard precedes the read in the source) —
and reads the target only when both checks pass. -/
theorem c4_read_guards (fs : FS) (ws pn fp : List Char)
    (hsec : securityCheck ws pn fp = true) :
    (∀ s m, fs.find (targetSegs ws pn fp) = some (.dir s m) →
      readFileRoute fs ws pn fp = .isDir400) ∧
    (∀ c m, fs.find (targetSegs ws pn fp) = some (.file c m) → sizeCap < c.length →
      readFileRoute fs ws pn fp = .tooLarge413) ∧
    (∀ c m, fs.find (targetSegs ws pn fp) = some (.file c m) → c.length ≤ sizeCap →
      ∃ fc, readFileRoute fs ws pn fp = .ok fc) := by
  refine ⟨?_, ?_, ?_⟩
  · intro s m hf
    simp [readFileRoute, hsec, hf]
  · intro c m hf hlen
    simp [readFileRoute, hsec, hf, hlen]
  · intro c m hf hlen
    simp [readFileRoute, hsec, hf, Nat.not_lt.mpr hlen]

theorem c4_read_guards_witness :
    readFileRoute [([chars "ws", chars "proj", chars "a.txt"], .dir 4096 3)]
      (chars "/ws") (chars "proj") (chars "a.txt") = .isDir400 ∧
    readFileRoute
      [([chars "ws", chars "proj", chars "a.txt"],
        .file (List.replicate (10 * 1024 * 1024 + 1) 0) 7)]
      (chars "/ws") (chars "proj") (chars "a.txt") = .tooLarge413 ∧
    (∃ fc, readFileRoute [([chars "ws", chars "proj", chars "a.txt"], .file [104] 7)]
      (chars "/ws") (chars "proj") (chars "a.txt") = .ok fc) := by
  refine ⟨(c4_read_guards _ _ _ _ (by decide)).1 4096 3 ?_,
          (c4_read_guards _ _ _ _ (by decide)).2.1
            (List.replicate (10 * 1024 * 1024 + 1) 0) 7 ?_ ?_,
          (c4_read_guards _ _ _ _ (by decide)).2.2 [104] 7 ?_ ?_⟩
  · rfl
  · rfl
  · rw [List.length_replicate]
    decide
  · rfl
  · decide

/-- C5: on a readable regular file within the size cap, the read route
classifies the file as binary exactly when the decoded text contains a
code point in `[0x00,0x08] ∪ [0x0E,0x1F] ∪ [0x7F,0x9F]` (Node's utf8
decoding is total — malformed bytes become U+FFFD — so the source's
"decoding failed" catch branch is unreachable and classification reduces
to the control-character scan); a binary file is reported with absent
content and type "binary", a text file with the decoded text unchanged and
type "text".  In particular a file of printable ASCII and newlines comes
back verbatim with `isBinary = false`, and a file containing a `0x00` byte
comes back with `isBinary = true` and no content. -/
theorem c5_binary_classification (fs : FS) (ws pn fp : List Char)
    (hsec : securityCheck ws pn fp = true) :
    (∀ c m, fs.find (targetSegs ws pn fp) = some (.file c m) → c.length ≤ sizeCap →
      readFileRoute fs ws pn fp = .ok
        { name := baseName (targetSegs ws pn fp)
          path := slashify fp
          extension := extname (baseName (targetSegs ws pn fp))
          size := c.length
          modified := m
          content := if (utf8Decode c).any (fun x => bannedCodePoint x) then none
                     else some (utf8Decode c)
          isBinary := (utf8Decode c).any (fun x => bannedCodePoint x)
          type := if (utf8Decode c).any (fun x => bannedCodePoint x) then "binary"
                  else "text" }) ∧
    (∀ c m, fs.find (targetSegs ws pn fp) = some (.file c m) → c.length ≤ sizeCap →
      (∀ b ∈ c, b < 0x80 ∧ bannedCodePoint b = false) →
      readFileRoute fs ws pn fp = .ok
        { name := baseName (targetSegs ws pn fp)
          path := slashify fp
          extension := extname (baseName (targetSegs ws pn fp))
          size := c.length
          modified := m
          content := some c
          isBinary := false
          type := "text" }) ∧
    (∀ c m, fs.find (targetSegs ws pn fp) = some (.file c m) → c.length ≤ sizeCap →
      0 ∈ c →
      readFileRoute fs ws pn fp = .ok
        { name := baseName (targetSegs ws pn fp)
          path := slashify fp
          extension := extname (baseName (targetSegs ws pn fp))
          size := c.length
          modified := m
          content := none
          isBinary := true
          type := "binary" }) := by
  refine ⟨?_, ?_, ?_⟩
  · intro c m hf hlen
    simp [readFileRoute, hsec, hf, Nat.not_lt.mpr hlen]
  · intro c m hf hlen hascii
    have hd : utf8Decode c = c := utf8Decode_asciiList c (fun b hb => (hascii b hb).1)
    have hpb : ∀ b ∈ c, bannedCodePoint b = false := fun b hb => (hascii b hb).2
    simp [readFileRoute, hsec, hf, Nat.not_lt.mpr hlen, hd]
    exact hpb
  · intro c m hf hlen h0
    have hb0 : 0 ∈ utf8Decode c := zero_mem_utf8Decode c h0
    have hex : ∃ x ∈ utf8Decode c, bannedCodePoint x = true := ⟨0, hb0, by decide⟩
    simp [readFileRoute, hsec, hf, Nat.not_lt.mpr hlen, hex]

theorem c5_binary_classification_witness :
    readFileRoute [([chars "ws", chars "proj", chars "a.txt"], .file [104, 105, 10] 7)]
      (chars "/ws") (chars "proj") (chars "a.txt") = .ok
        { name := chars "a.txt"
          path := chars "a.txt"
          extension := chars ".txt"
          size := 3
          modified := 7
          content := some [104, 105, 10]
          isBinary := false
          type := "text" } ∧
    readFileRoute [([chars "ws", chars "proj", chars "b.bin"], .file [104, 0] 7)]
      (chars "/ws") (chars "proj") (chars "b.bin") = .ok
        { name := chars "b.bin"
          path := chars "b.bin"
          extension := chars ".bin"
          size := 2
          modified := 7
          content := none
          isBinary := true
          type := "binary" } := by
  constructor
  · have h := (c5_binary_classification
      [([chars "ws", chars "proj", chars "a.txt"], .file [104, 105, 10] 7)]
      (chars "/ws") (chars "proj") (chars "a.txt") (by decide)).2.1
      [104, 105, 10] 7 (by rfl) (by decide) (by decide)
    rw [h]
    decide
  · have h := (c5_binary_classification
      [([chars "ws", chars "proj", chars "b.bin"], .file [104, 0] 7)]
      (chars "/ws") (chars "proj") (chars "b.bin") (by decide)).2.2
      [104, 0] 7 (by rfl) (by decide) (by decide)
    rw [h]
    decide

/-- C6: `createFile` (the POST file route) is create-only.  On a confined
path with no existing entry it creates the missing parent directories and
the file and answers 201; called again on the same path it answers 409,
returns the state unchanged, and the originally written content is still
there. -/
theorem c6_create_exclusive (fs : FS) (ws pn fp : List Char) (content c2 : List Nat)
    (now now2 : Nat) (hsec : securityCheck ws pn fp = true)
    (hnone : fs.find (targetSegs ws pn fp) = none)
    (fs1 : FS)
    (hmk : mkdirp fs now (prefixList (targetSegs ws pn fp).dropLast) = some fs1) :
    createFileRoute fs ws pn fp content now =
      (.created201
        { name := baseName (targetSegs ws pn fp)
          path := slashify fp
          size := (utf8Encode content).length
          modified := now
          content := content },
       fs1.insert (targetSegs ws pn fp) (.file (utf8Encode content) now)) ∧
    (∀ p ∈ prefixList (targetSegs ws pn fp).dropLast,
      ∃ s m, (fs1.insert (targetSegs ws pn fp) (.file (utf8Encode content) now)).find p =
        some (.dir s m)) ∧
    (fs1.insert (targetSegs ws pn fp) (.file (utf8Encode content) now)).find
      (targetSegs ws pn fp) = some (.file (utf8Encode content) now) ∧
    createFileRoute (fs1.insert (targetSegs ws pn fp) (.file (utf8Encode content) now))
      ws pn fp c2 now2 =
      (.exists409, fs1.insert (targetSegs ws pn fp) (.file (utf8Encode content) now)) := by
  refine ⟨?_, ?_, FS.find_insert_self _ _ _, ?_⟩
  · simp [createFileRoute, hsec, hnone, hmk]
  · intro p hp
    have hlt := prefixList_dropLast_length _ p hp
    have hne : p ≠ targetSegs ws pn fp := by
      intro he
      rw [he] at hlt
      omega
    rw [FS.find_insert_ne _ _ _ _ hne]
    exact mkdirp_creates now _ fs fs1 hmk p hp
  · simp [createFileRoute, hsec, FS.find_insert_self]

/-- C7 (amended): for string content that the read route classifies as
text (no code point in the control ranges) and whose UTF-8 encoding fits
the 10 MiB read cap, `writeFile` on a confined path creates the missing
parents and the file, and a subsequent `readFile` returns the written
content verbatim; non-string bodies are rejected with 400 before any
filesystem write.  (The unamended claim quantifies over *every* string,
which fails: see the counterexample with a NUL character.) -/
theorem c7_write_read_roundtrip (fs : FS) (ws pn fp : List Char) (content : List Nat)
    (now : Nat) (hsec : securityCheck ws pn fp = true)
    (hval : ∀ c ∈ content, validScalar c = true)
    (hban : ∀ c ∈ content, bannedCodePoint c = false)
    (hlen : (utf8Encode content).length ≤ sizeCap)
    (hnotdir : ((fs.find (targetSegs ws pn fp)).map Entry.isDir).getD false = false)
    (fs1 : FS)
    (hmk : mkdirp fs now (prefixList (targetSegs ws pn fp).dropLast) = some fs1) :
    writeFileRoute fs ws pn fp (.str content) now =
      (.saved200
        { name := baseName (targetSegs ws pn fp)
          path := slashify fp
          size := (utf8Encode content).length
          modified := now },
       fs1.insert (targetSegs ws pn fp) (.file (utf8Encode content) now)) ∧
    (∀ p ∈ prefixList (targetSegs ws pn fp).dropLast,
      ∃ s m, (fs1.insert (targetSegs ws pn fp) (.file (utf8Encode content) now)).find p =
        some (.dir s m)) ∧
    readFileRoute (fs1.insert (targetSegs ws pn fp) (.file (utf8Encode content) now))
      ws pn fp = .ok
      { name := baseName (targetSegs ws pn fp)
        path := slashify fp
        extension := extname (baseName (targetSegs ws pn fp))
        size := (utf8Encode content).length
        modified := now
        content := some content
        isBinary := false
        type := "text" } ∧
    (∀ (fs' : FS) (now' : Nat), writeFileRoute fs' ws pn fp .nonStr now' = (.invalid400, fs')) := by
  have hlonger : ∀ p ∈ prefixList (targetSegs ws pn fp).dropLast,
      p.length < (targetSegs ws pn fp).length :=
    fun p hp => prefixList_dropLast_length _ p hp
  have hfind1 : fs1.find (targetSegs ws pn fp) = fs.find (targetSegs ws pn fp) :=
    mkdirp_find_of_longer now _ fs fs1 _ hmk hlonger
  refine ⟨?_, ?_, ?_, ?_⟩
  · cases hf : fs.find (targetSegs ws pn fp) with
    | none => simp [writeFileRoute, hsec, hmk, hfind1, hf]
    | some e =>
      cases e with
      | file c m => simp [writeFileRoute, hsec, hmk, hfind1, hf]
      | dir s m =>
        rw [hf] at hnotdir
        simp [Entry.isDir] at hnotdir
  · intro p hp
    have hlt := hlonger p hp
    have hne : p ≠ targetSegs ws pn fp := by
      intro he
      rw [he] at hlt
      omega
    rw [FS.find_insert_ne _ _ _ _ hne]
    exact mkdirp_creates now _ fs fs1 hmk p hp
  · have hdec : utf8Decode (utf8Encode content) = content := utf8Decode_encode content hval
    simp [readFileRoute, hsec, FS.find_insert_self, Nat.not_lt.mpr hlen, hdec]
    exact hban
  · intro fs' now'
    simp [writeFileRoute, hsec]

/-- C7 counterexample: the claim as stated promises the round trip for
*every* string content, but writing the one-character string `"\u0000"`
and reading it back yields `content = null`, `isBinary = true` — the
binary classification of the read route withholds the stored content, so
the round trip is not verbatim. -/
theorem c7_roundtrip_fails_on_control_char :
    (writeFileRoute [] (chars "/ws") (chars "proj") (chars "f.txt")
      (.str [0]) 0).1.isSaved = true ∧
    (readFileRoute
      (writeFileRoute [] (chars "/ws") (chars "proj") (chars "f.txt") (.str [0]) 0).2
      (chars "/ws") (chars "proj") (chars "f.txt")).fileOf.map
        (fun fc => (fc.content, fc.isBinary)) = some (none, true) := by decide

theorem c7_write_read_roundtrip_witness :
    readFileRoute
      (FS.insert
        [([chars "ws", chars "proj", chars "a"], Entry.dir 4096 5),
         ([chars "ws", chars "proj"], Entry.dir 4096 5),
         ([chars "ws"], Entry.dir 4096 5)]
        (targetSegs (chars "/ws") (chars "proj") (chars "a/b.txt"))
        (.file (utf8Encode [104, 105]) 5))
      (chars "/ws") (chars "proj") (chars "a/b.txt") = .ok
      { name := baseName (targetSegs (chars "/ws") (chars "proj") (chars "a/b.txt"))
        path := slashify (chars "a/b.txt")
        extension := extname (baseName (targetSegs (chars "/ws") (chars "proj") (chars "a/b.txt")))
        size := (utf8Encode [104, 105]).length
        modified := 5
        content := some [104, 105]
        isBinary := false
        type := "text" } :=
  (c7_write_read_roundtrip [] (chars "/ws") (chars "proj") (chars "a/b.txt") [104, 105] 5
    (by decide) (by decide) (by decide) (by decide) (by decide)
    [([chars "ws", chars "proj", chars "a"], Entry.dir 4096 5),
     ([chars "ws", chars "proj"], Entry.dir 4096 5),
     ([chars "ws"], Entry.dir 4096 5)] (by decide)).2.2.1

theorem c6_create_exclusive_witness :
    createFileRoute [] (chars "/ws") (chars "proj") (chars "a/b.txt") [104] 5 =
      (.created201
        { name := baseName (targetSegs (chars "/ws") (chars "proj") (chars "a/b.txt"))
          path := slashify (chars "a/b.txt")
          size := (utf8Encode [104]).length
          modified := 5
          content := [104] },
       FS.insert
         [([chars "ws", chars "proj", chars "a"], Entry.dir 4096 5),
          ([chars "ws", chars "proj"], Entry.dir 4096 5),
          ([chars "ws"], Entry.dir 4096 5)]
         (targetSegs (chars "/ws") (chars "proj") (chars "a/b.txt"))
         (.file (utf8Encode [104]) 5)) ∧
    createFileRoute
      (FS.insert
         [([chars "ws", chars "proj", chars "a"], Entry.dir 4096 5),
          ([chars "ws", chars "proj"], Entry.dir 4096 5),
          ([chars "ws"], Entry.dir 4096 5)]
         (targetSegs (chars "/ws") (chars "proj") (chars "a/b.txt"))
         (.file (utf8Encode [104]) 5))
      (chars "/ws") (chars "proj") (chars "a/b.txt") [105] 6 =
      (.exists409,
       FS.insert
         [([chars "ws", chars "proj", chars "a"], Entry.dir 4096 5),
          ([chars "ws", chars "proj"], Entry.dir 4096 5),
          ([chars "ws"], Entry.dir 4096 5)]
         (targetSegs (chars "/ws") (chars "proj") (chars "a/b.txt"))
         (.file (utf8Encode [104]) 5)) := by
  have h := c6_create_exclusive [] (chars "/ws") (chars "proj") (chars "a/b.txt") [104] [105] 5 6
    (by decide) (by decide)
    [([chars "ws", chars "proj", chars "a"], Entry.dir 4096 5),
     ([chars "ws", chars "proj"], Entry.dir 4096 5),
     ([chars "ws"], Entry.dir 4096 5)] (by decide)
  exact ⟨h.1, h.2.2.2⟩

/-! ### Character-level lemmas for sanitization -/
theorem tolower_val (c : Char) (h : 65 ≤ c.toNat ∧ c.toNat ≤ 90) :
    (Char.toLower c).toNat = c.toNat + 32 := by
  unfold Char.toLower
  rw [if_pos h]
  have hv : (c.toNat + 32).isValidChar := by
    left
    omega
  rw [Char.ofNat, dif_pos hv]
  simp [Char.ofNatAux, Char.toNat, UInt32.toNat, UInt32.ofNatCore, BitVec.toNat_ofNatLt]

theorem tolower_eq_self (c : Char) (h : ¬ (65 ≤ c.toNat ∧ c.toNat ≤ 90)) :
    Char.toLower c = c := by
  unfold Char.toLower
  rw [if_neg h]

theorem isUpper_iff (c : Char) : c.isUpper = true ↔ 65 ≤ c.toNat ∧ c.toNat ≤ 90 := by
  simp only [Char.isUpper, Bool.and_eq_true, decide_eq_true_eq]
  exact Iff.rfl

theorem tolower_not_upper (c : Char) : (Char.toLower c).isUpper = false := by
  by_cases h : 65 ≤ c.toNat ∧ c.toNat ≤ 90
  · have hval := tolower_val c h
    by_contra hne
    rw [Bool.not_eq_false] at hne
    have := (isUpper_iff _).mp hne
    omega
  · rw [tolower_eq_self c h]
    by_contra hne
    rw [Bool.not_eq_false] at hne
    have := (isUpper_iff _).mp hne
    exact h this

theorem jsWhitespace_toNat (d : Char) (h : jsWhitespace d = true) :
    d.toNat = 32 ∨ d.toNat = 9 ∨ d.toNat = 10 ∨ d.toNat = 13 ∨ d.toNat = 11 ∨
    d.toNat = 12 ∨ d.toNat = 160 ∨ d.toNat = 5760 ∨
    (8192 ≤ d.toNat ∧ d.toNat ≤ 8202) ∨ d.toNat = 8232 ∨ d.toNat = 8233 ∨
    d.toNat = 8239 ∨ d.toNat = 8287 ∨ d.toNat = 12288 ∨ d.toNat = 65279 := by
  simp only [jsWhitespace, Bool.or_eq_true, Bool.and_eq_true, decide_eq_true_eq] at h
  rcases h with ((((((((((((((h | h) | h) | h) | h) | h) | h) | h) | h) | h) | h) | h) | h) | h) | h)
    <;> first
      | (subst h; simp [Char.toNat])
      | (rcases h with ⟨h1, h2⟩
         have g1 : (8192 : Nat) ≤ d.toNat := h1
         have g2 : d.toNat ≤ (8202 : Nat) := h2
         omega)

theorem not_jsWhitespace_of_lower (d : Char) (h97 : 97 ≤ d.toNat) (h122 : d.toNat ≤ 122) :
    jsWhitespace d = false := by
  by_contra hne
  rw [Bool.not_eq_false] at hne
  have := jsWhitespace_toNat d hne
  omega

theorem invalidNameChar_toNat (d : Char) (h : invalidNameChar d = true) :
    d.toNat = 60 ∨ d.toNat = 62 ∨ d.toNat = 58 ∨ d.toNat = 34 ∨ d.toNat = 47 ∨
    d.toNat = 92 ∨ d.toNat = 124 ∨ d.toNat = 63 ∨ d.toNat = 42 := by
  simp only [invalidNameChar, Bool.or_eq_true, decide_eq_true_eq] at h
  rcases h with ((((((((h | h) | h) | h) | h) | h) | h) | h) | h) <;>
    (subst h; simp [Char.toNat])

theorem not_invalidNameChar_of_lower (d : Char) (h97 : 97 ≤ d.toNat) (h122 : d.toNat ≤ 122) :
    invalidNameChar d = false := by
  by_contra hne
  rw [Bool.not_eq_false] at hne
  have := invalidNameChar_toNat d hne
  omega

theorem tolower_not_ws (c : Char) (h : jsWhitespace c = false) :
    jsWhitespace (Char.toLower c) = false := by
  by_cases hc : 65 ≤ c.toNat ∧ c.toNat ≤ 90
  · have hval := tolower_val c hc
    exact not_jsWhitespace_of_lower _ (by omega) (by omega)
  · rw [tolower_eq_self c hc]
    exact h

theorem tolower_not_invalid (c : Char) (h : invalidNameChar c = false) :
    invalidNameChar (Char.toLower c) = false := by
  by_cases hc : 65 ≤ c.toNat ∧ c.toNat ≤ 90
  · have hval := tolower_val c hc
    exact not_invalidNameChar_of_lower _ (by omega) (by omega)
  · rw [tolower_eq_self c hc]
    exact h

theorem collapseWsAux_mem (s : List Char) :
    ∀ (b : Bool) (c : Char), c ∈ collapseWsAux b s →
      c = '-' ∨ (c ∈ s ∧ jsWhitespace c = false) := by
  induction s with
  | nil => intro b c hc; simp [collapseWsAux] at hc
  | cons x rest ih =>
    intro b c hc
    rw [collapseWsAux] at hc
    by_cases hx : jsWhitespace x = true
    · rw [if_pos hx] at hc
      cases b with
      | true =>
        rcases ih true c hc with h | ⟨h1, h2⟩
        · exact Or.inl h
        · exact Or.inr ⟨by simp [h1], h2⟩
      | false =>
        rcases List.mem_cons.mp hc with rfl | hc'
        · exact Or.inl rfl
        · rcases ih true c hc' with h | ⟨h1, h2⟩
          · exact Or.inl h
          · exact Or.inr ⟨by simp [h1], h2⟩
    · rw [if_neg hx] at hc
      rcases List.mem_cons.mp hc with rfl | hc'
      · exact Or.inr ⟨by simp, by simpa using hx⟩
      · rcases ih false c hc' with h | ⟨h1, h2⟩
        · exact Or.inl h
        · exact Or.inr ⟨by simp [h1], h2⟩

theorem trimJs_subset (s : List Char) (c : Char) (hc : c ∈ trimJs s) : c ∈ s := by
  unfold trimJs at hc
  rw [List.mem_reverse] at hc
  have h1 := (List.dropWhile_sublist _).mem hc
  rw [List.mem_reverse] at h1
  exact (List.dropWhile_sublist _).mem h1

/-- C8 counterexample: the claim (and the spec's example) says
`"My Project!!"` sanitizes to `"my-project"`, but `!` is not in the
stripped set `<>:"/\|?*`, so the code yields `"my-project!!"`. -/
theorem c8_sanitize_example_counterexample :
    sanitizeFolderName (chars "My Project!!") = chars "my-project!!" ∧
    ¬ sanitizeFolderName (chars "My Project!!") = chars "my-project" := by decide

/-- C8 (amended): sanitization strips exactly the characters in
`<>:"/\|?*`, collapses whitespace runs to hyphens and lowercases — so
`"My Project!!"` sanitizes to `"my-project!!"` (the `!` characters are not
stripped) — and, after sanitization, empty results are rejected and the
reserved device names are rejected regardless of the input's letter case
(`"CON"` like `"con"`). -/
theorem c8_sanitize_validate :
    sanitizeFolderName (chars "My Project!!") = chars "my-project!!" ∧
    (∀ (name : List Char), ∀ c ∈ sanitizeFolderName name,
      invalidNameChar c = false ∧ jsWhitespace c = false ∧ c.isUpper = false) ∧
    (∀ name : List Char, name ≠ [] → sanitizeFolderName name = [] →
      (validateFolderName name).isInvalid = true) ∧
    (∀ name : List Char, toLowerJs (sanitizeFolderName name) ∈ reservedNames →
      (validateFolderName name).isInvalid = true) ∧
    (validateFolderName (chars "con")).isInvalid = true ∧
    (validateFolderName (chars "CON")).isInvalid = true := by
  refine ⟨by decide, ?_, ?_, ?_, by decide, by decide⟩
  · intro name c hc
    have hs := trimJs_subset _ c hc
    rcases List.mem_map.mp hs with ⟨c0, hc0, rfl⟩
    rcases collapseWsAux_mem _ false c0 hc0 with rfl | ⟨h1, h2⟩
    · exact ⟨by decide, by decide, by decide⟩
    · have hinv : invalidNameChar c0 = false := by
        have := (List.mem_filter.mp h1).2
        simpa using this
      exact ⟨tolower_not_invalid c0 hinv, tolower_not_ws c0 h2, tolower_not_upper c0⟩
  · intro name h1 h2
    simp [validateFolderName, h1, h2, ValidateRes.isInvalid]
  · intro name h
    simp only [validateFolderName]
    split_ifs with g1 g2 g3 <;> rfl

theorem c8_sanitize_validate_witness :
    (invalidNameChar 'a' = false ∧ jsWhitespace 'a' = false ∧ Char.isUpper 'a' = false) ∧
    (validateFolderName (chars "<")).isInvalid = true ∧
    (validateFolderName (chars "CON")).isInvalid = true :=
  ⟨c8_sanitize_validate.2.1 (chars "A b") 'a' (by decide),
   c8_sanitize_validate.2.2.1 (chars "<") (by decide) (by decide),
   c8_sanitize_validate.2.2.2.1 (chars "CON") (by decide)⟩

theorem nodeLE_total (lc : List Char → List Char → Int)
    (hTot : ∀ x y, lc x y ≤ 0 ∨ lc y x ≤ 0) (a b : TreeNode) :
    nodeLE lc a b ∨ nodeLE lc b a := by
  unfold nodeLE nodeCmp
  cases ha : a.isDirectory <;> cases hb : b.isDirectory <;> simp [ha, hb]
  · exact hTot _ _
  · exact hTot _ _

theorem nodeLE_trans (lc : List Char → List Char → Int)
    (hTrans : ∀ x y z, lc x y ≤ 0 → lc y z ≤ 0 → lc x z ≤ 0) (a b c : TreeNode)
    (h1 : nodeLE lc a b) (h2 : nodeLE lc b c) : nodeLE lc a c := by
  unfold nodeLE nodeCmp at h1 h2 ⊢
  cases ha : a.isDirectory <;> cases hb : b.isDirectory <;> cases hc : c.isDirectory <;>
    simp [ha, hb, hc] at h1 h2 ⊢ <;>
    exact hTrans _ _ _ h1 h2

theorem pairwiseLE_of_sorted (lc : List Char → List Char → Int) :
    ∀ l : List TreeNode, List.Sorted (nodeLE lc) l → pairwiseLE lc l = true := by
  intro l h
  induction l with
  | nil => rfl
  | cons a t ih =>
    rw [List.sorted_cons] at h
    rw [pairwiseLE, Bool.and_eq_true]
    refine ⟨?_, ih h.2⟩
    rw [List.all_eq_true]
    intro b hb
    exact decide_eq_true (h.1 b hb)

theorem nodesSortedOk_eq_all (lc : List Char → List Char → Int) :
    ∀ l : List TreeNode, nodesSortedOk lc l = l.all (fun n => nodeSortedOk lc n) := by
  intro l
  induction l with
  | nil => rfl
  | cons n ns ih => rw [nodesSortedOk, ih, List.all_cons]

theorem all_eq_of_perm {α : Type} {l l' : List α} (h : l.Perm l') (f : α → Bool) :
    l.all f = l'.all f := by
  rcases hl : l.all f with _ | _
  · rw [List.all_eq_false] at hl
    rcases hl with ⟨x, hx, hfx⟩
    have : l'.all f = false := by
      rw [List.all_eq_false]
      exact ⟨x, h.mem_iff.mp hx, hfx⟩
    rw [this]
  · rw [List.all_eq_true] at hl
    have : l'.all f = true := by
      rw [List.all_eq_true]
      exact fun x hx => hl x (h.mem_iff.mpr hx)
    rw [this]

mutual

theorem entryNode_sortedOk (lc : List Char → List Char → Int)
    (hTot : ∀ x y, lc x y ≤ 0 ∨ lc y x ≤ 0)
    (hTrans : ∀ x y z, lc x y ≤ 0 → lc y z ≤ 0 → lc x z ≤ 0) :
    ∀ (bp : List Char) (e : DirEnt), nodeSortedOk lc (entryNode lc bp e) = true
  | bp, .file n c m => rfl
  | bp, .dir n s m ch => by
    haveI : IsTotal TreeNode (nodeLE lc) := ⟨nodeLE_total lc hTot⟩
    haveI : IsTrans TreeNode (nodeLE lc) := ⟨nodeLE_trans lc hTrans⟩
    rw [entryNode, nodeSortedOk, Bool.and_eq_true]
    constructor
    · exact pairwiseLE_of_sorted lc _
        (List.sorted_insertionSort (nodeLE lc) (mapNodes lc (relPath bp n) ch))
    · rw [nodesSortedOk_eq_all,
        all_eq_of_perm (List.perm_insertionSort (nodeLE lc) _) _,
        ← nodesSortedOk_eq_all]
      exact mapNodes_sortedOk lc hTot hTrans (relPath bp n) ch

theorem mapNodes_sortedOk (lc : List Char → List Char → Int)
    (hTot : ∀ x y, lc x y ≤ 0 ∨ lc y x ≤ 0)
    (hTrans : ∀ x y z, lc x y ≤ 0 → lc y z ≤ 0 → lc x z ≤ 0) :
    ∀ (bp : List Char) (es : List DirEnt), nodesSortedOk lc (mapNodes lc bp es) = true
  | bp, [] => rfl
  | bp, e :: es => by
    rw [mapNodes, nodesSortedOk, Bool.and_eq_true]
    exact ⟨entryNode_sortedOk lc hTot hTrans bp e, mapNodes_sortedOk lc hTot hTrans bp es⟩

end

theorem chCmp_le_iff (x y : List Char) : chCmp x y ≤ 0 ↔ x ≤ y := by
  unfold chCmp
  split_ifs with h1 h2
  · simp [le_of_lt h1]
  · simp [not_le.mpr h2]
  · have hxy : x = y := by
      rcases lt_trichotomy x y with h | h | h
      · exact absurd h h1
      · exact h
      · exact absurd h h2
    simp [hxy]

theorem chCmp_total (x y : List Char) : chCmp x y ≤ 0 ∨ chCmp y x ≤ 0 := by
  rw [chCmp_le_iff, chCmp_le_iff]
  exact le_total x y

theorem chCmp_trans (x y z : List Char) (h1 : chCmp x y ≤ 0) (h2 : chCmp y z ≤ 0) :
    chCmp x z ≤ 0 := by
  rw [chCmp_le_iff] at h1 h2 ⊢
  exact le_trans h1 h2

/-- C3: every directory level returned by the tree walk places all
directories before all files and, within each group, orders entries
ascending by the name comparator (`localeCompare`, abstracted as any total
transitive comparator): the whole tree is pairwise sorted under the
source's comparator, recursively at every level.  In particular a
directory with entries `b.txt`, `A` (a subdirectory) and `a.txt` lists as
`[A, a.txt, b.txt]`. -/
theorem c3_tree_sort_order :
    (∀ (lc : List Char → List Char → Int),
      (∀ x y, lc x y ≤ 0 ∨ lc y x ≤ 0) →
      (∀ x y z, lc x y ≤ 0 → lc y z ≤ 0 → lc x z ≤ 0) →
      ∀ (entries : List DirEnt) (bp : List Char),
        pairwiseLE lc (getFileTree lc entries bp) = true ∧
        nodesSortedOk lc (getFileTree lc entries bp) = true) ∧
    List.map TreeNode.name
      (getFileTree chCmp
        [.file (chars "b.txt") [] 0, .dir (chars "A") 4096 0 [],
         .file (chars "a.txt") [] 0] []) =
      [chars "A", chars "a.txt", chars "b.txt"] := by
  constructor
  · intro lc hTot hTrans entries bp
    haveI : IsTotal TreeNode (nodeLE lc) := ⟨nodeLE_total lc hTot⟩
    haveI : IsTrans TreeNode (nodeLE lc) := ⟨nodeLE_trans lc hTrans⟩
    constructor
    · exact pairwiseLE_of_sorted lc _ (List.sorted_insertionSort _ _)
    · rw [getFileTree, nodesSortedOk_eq_all,
        all_eq_of_perm (List.perm_insertionSort _ _) _, ← nodesSortedOk_eq_all]
      exact mapNodes_sortedOk lc hTot hTrans bp entries
  · decide

theorem c3_tree_sort_order_witness :
    pairwiseLE chCmp
      (getFileTree chCmp
        [.dir (chars "A") 4096 0 [.file (chars "z") [] 0, .file (chars "y") [] 0],
         .file (chars "a.txt") [] 0] []) = true ∧
    nodesSortedOk chCmp
      (getFileTree chCmp
        [.dir (chars "A") 4096 0 [.file (chars "z") [] 0, .file (chars "y") [] 0],
         .file (chars "a.txt") [] 0] []) = true :=
  c3_tree_sort_order.1 chCmp chCmp_total chCmp_trans
    [.dir (chars "A") 4096 0 [.file (chars "z") [] 0, .file (chars "y") [] 0],
     .file (chars "a.txt") [] 0] []

theorem slashify_no_backslash (p : List Char) : ∀ c ∈ slashify p, c ≠ '\\' := by
  intro c hc
  rcases List.mem_map.mp hc with ⟨c0, _, rfl⟩
  by_cases h : c0 = '\\' <;> simp [h]

theorem mem_flattenNodes (x : TreeNode) :
    ∀ l : List TreeNode, x ∈ flattenNodes l ↔ ∃ n ∈ l, x ∈ flattenNode n := by
  intro l
  induction l with
  | nil => simp [flattenNodes]
  | cons n ns ih =>
    rw [flattenNodes, List.mem_append, ih]
    constructor
    · rintro (h | ⟨n', hn', hx⟩)
      · exact ⟨n, by simp, h⟩
      · exact ⟨n', by simp [hn'], hx⟩
    · rintro ⟨n', hn', hx⟩
      rcases List.mem_cons.mp hn' with rfl | hn''
      · exact Or.inl hx
      · exact Or.inr ⟨n', hn'', hx⟩

mutual

theorem flattenNode_shape (lc : List Char → List Char → Int) :
    ∀ (bp : List Char) (e : DirEnt) (x : TreeNode),
      x ∈ flattenNode (entryNode lc bp e) → nodeShape x
  | bp, .file n c m, x => by
    intro hx
    rw [entryNode, flattenNode] at hx
    rcases List.mem_singleton.mp hx with rfl
    refine ⟨fun h => by simp [TreeNode.isDirectory] at h, fun _ => ⟨rfl, rfl, rfl⟩, ?_⟩
    exact slashify_no_backslash _
  | bp, .dir n s m ch, x => by
    intro hx
    rw [entryNode, flattenNode] at hx
    rcases List.mem_cons.mp hx with rfl | hx'
    · refine ⟨fun _ => ⟨rfl, rfl, rfl⟩, fun h => by simp [TreeNode.isDirectory] at h, ?_⟩
      exact slashify_no_backslash _
    · rcases (mem_flattenNodes x _).mp hx' with ⟨n', hn', hxn⟩
      rw [List.mem_insertionSort] at hn'
      exact flattenNodes_shape lc (relPath bp n) ch x
        ((mem_flattenNodes x _).mpr ⟨n', hn', hxn⟩)

theorem flattenNodes_shape (lc : List Char → List Char → Int) :
    ∀ (bp : List Char) (es : List DirEnt) (x : TreeNode),
      x ∈ flattenNodes (mapNodes lc bp es) → nodeShape x
  | bp, [], x => by
    intro hx
    simp [mapNodes, flattenNodes] at hx
  | bp, e :: es, x => by
    intro hx
    rw [mapNodes, flattenNodes, List.mem_append] at hx
    rcases hx with hx | hx
    · exact flattenNode_shape lc bp e x hx
    · exact flattenNodes_shape lc bp es x hx

end

/-- C9 counterexample: the claim says a directory node's size is 0, but the
walk copies `stats.size` unchanged; a directory statting at 4096 bytes (the
usual ext4 value) yields a directory node of size 4096 — the claimed
"all directory nodes have size 0" is false of the code. -/
theorem c9_dir_size_counterexample :
    (getFileTree chCmp [.dir (chars "A") 4096 0 []] []).all
      (fun node => !node.isDirectory || node.size == 0) = false := by decide

/-- C9 (amended): every node of the tree walk satisfies: a directory node
has no extension, carries a children list (and the collapsed flag), and its
size is the stat-reported value (not 0); a file node's extension is derived
from its name and it has no children; every node's path is
forward-slash-separated (no backslash survives the normalization), relative
to the directory the walk was started on. -/
theorem c9_node_shape :
    (∀ (lc : List Char → List Char → Int) (entries : List DirEnt)
      (bp : List Char) (node : TreeNode),
      node ∈ flattenNodes (getFileTree lc entries bp) → nodeShape node) ∧
    (∀ (lc : List Char → List Char → Int) (bp : List Char) (n : List Char)
      (s m : Nat) (ch : List DirEnt),
      (entryNode lc bp (DirEnt.dir n s m ch)).size = s ∧
      (entryNode lc bp (DirEnt.dir n s m ch)).modified = m) ∧
    (∀ (lc : List Char → List Char → Int) (bp : List Char) (n : List Char)
      (c : List Nat) (m : Nat),
      (entryNode lc bp (DirEnt.file n c m)).size = c.length ∧
      (entryNode lc bp (DirEnt.file n c m)).modified = m) := by
  refine ⟨?_, fun lc bp n s m ch => ⟨rfl, rfl⟩, fun lc bp n c m => ⟨rfl, rfl⟩⟩
  intro lc entries bp node hnode
  rw [getFileTree] at hnode
  rcases (mem_flattenNodes node _).mp hnode with ⟨n', hn', hxn⟩
  rw [List.mem_insertionSort] at hn'
  exact flattenNodes_shape lc bp entries node
    ((mem_flattenNodes node _).mpr ⟨n', hn', hxn⟩)

theorem c9_node_shape_witness :
    nodeShape (.mk (chars "a.txt") (chars "a.txt") false 1 3
      (some (chars ".txt")) none none) := by
  have hmem : TreeNode.mk (chars "a.txt") (chars "a.txt") false 1 3
      (some (chars ".txt")) none none ∈
      flattenNodes (getFileTree chCmp [.file (chars "a.txt") [104] 3] []) := by
    rw [show flattenNodes (getFileTree chCmp [.file (chars "a.txt") [104] 3] []) =
      [.mk (chars "a.txt") (chars "a.txt") false 1 3 (some (chars ".txt")) none none]
      from rfl]
    exact List.mem_singleton.mpr rfl
  exact c9_node_shape.1 chCmp [.file (chars "a.txt") [104] 3] [] _ hmem

/-- C10: the workspace folder listing is sorted by creation timestamp,
newest first (not alphabetically); an entry whose stat fails is still
included, carrying the current time as both timestamps and size 0; and
every listed folder comes from a directory entry of the workspace. -/
theorem c10_folder_listing (ws : List Char) (now : Nat) (items : List WorkItem) :
    List.Sorted (fun a b => b.created ≤ a.created) (listFoldersRoute ws now items) ∧
    (∀ it ∈ items, it.isDirectory = true → it.stats = none →
      { name := it.name, path := resolveAbs (ws ++ '/' :: it.name),
        created := now, modified := now, size := 0 : FolderInfo } ∈
        listFoldersRoute ws now items) ∧
    (∀ f ∈ listFoldersRoute ws now items,
      ∃ it ∈ items, it.isDirectory = true ∧ f = folderOf ws now it) := by
  haveI : IsTotal FolderInfo (fun a b => b.created ≤ a.created) :=
    ⟨fun a b => le_total _ _⟩
  haveI : IsTrans FolderInfo (fun a b => b.created ≤ a.created) :=
    ⟨fun a b c h1 h2 => le_trans h2 h1⟩
  refine ⟨List.sorted_insertionSort _ _, ?_, ?_⟩
  · intro it hit hdir hst
    rw [listFoldersRoute, List.mem_insertionSort, List.mem_map]
    refine ⟨it, List.mem_filter.mpr ⟨hit, by simp [hdir]⟩, ?_⟩
    rw [folderOf, hst]
  · intro f hf
    rw [listFoldersRoute, List.mem_insertionSort, List.mem_map] at hf
    rcases hf with ⟨it, hit, rfl⟩
    rcases List.mem_filter.mp hit with ⟨h1, h2⟩
    exact ⟨it, h1, by simpa using h2, rfl⟩

theorem c10_folder_listing_witness :
    List.Sorted (fun a b : FolderInfo => b.created ≤ a.created)
      (listFoldersRoute (chars "/ws") 9
        [⟨chars "old", true, some (1, 2, 4096)⟩,
         ⟨chars "new", true, some (5, 6, 4096)⟩,
         ⟨chars "broken", true, none⟩,
         ⟨chars "file.txt", false, some (3, 3, 10)⟩]) ∧
    ({ name := chars "broken", path := resolveAbs (chars "/ws" ++ '/' :: chars "broken"),
       created := 9, modified := 9, size := 0 : FolderInfo } ∈
      listFoldersRoute (chars "/ws") 9
        [⟨chars "old", true, some (1, 2, 4096)⟩,
         ⟨chars "new", true, some (5, 6, 4096)⟩,
         ⟨chars "broken", true, none⟩,
         ⟨chars "file.txt", false, some (3, 3, 10)⟩]) := by
  have h := c10_folder_listing (chars "/ws") 9
    [⟨chars "old", true, some (1, 2, 4096)⟩,
     ⟨chars "new", true, some (5, 6, 4096)⟩,
     ⟨chars "broken", true, none⟩,
     ⟨chars "file.txt", false, some (3, 3, 10)⟩]
  exact ⟨h.1, h.2.1 ⟨chars "broken", true, none⟩ (by simp) rfl rfl⟩
